import Mathlib

/-
  Shallow embedding of the django-view-perms repository:
    - view_perms/management/commands/create_view_perms.py
        (get_all_views, get_view_name, Command.handle_app_config)
    - view_perms/middleware/check_view_perm.py
        (ViewPermissionMiddleware.process_request)

  Python objects are modelled by plain structures carrying exactly the
  attributes the two modules read; the Django permission store is a list of
  permission rows; Django queryset operations (get, filter, delete, create,
  save) are modelled by the corresponding list operations on that list.
-/

namespace ViewPerms

/-- A Python class object as probed by the source: its module path, its
name, and an optional dunder attribute holding a translated display name
(read by handle_app_config). -/
structure PyClass where
  module : String
  name : String
  name_trans : Option String
deriving DecidableEq, Repr

/-- A view callable, carrying the attributes read by the source code:
its module path and name, an optional bound view class attribute
(probed by get_view_name and handle_app_config), an optional
inner-callable attribute probed by the middleware (modelled by the
module and name of that inner callable, the only fields the middleware
reads after the replacement), and an optional translated-name dunder
attribute. -/
structure ViewFunc where
  module : String
  name : String
  view_class : Option PyClass
  view_func : Option (String × String)
  name_trans : Option String
deriving DecidableEq, Repr

mutual
/-- A node of the URL-pattern tree: a leaf RegexURLPattern whose callback
may be absent (a falsy callback is skipped by get_all_views), or a
RegexURLResolver holding the nested url_patterns list. -/
inductive UrlEntry where
  | pattern (callback : Option ViewFunc)
  | resolver (children : UrlPatterns)

/-- A Python list of URL-pattern entries (an urlpatterns list). -/
inductive UrlPatterns where
  | nil
  | cons (e : UrlEntry) (rest : UrlPatterns)
end

mutual
/-- The contribution of a single entry to the loop body of get_all_views:
a resolver node contributes the (already de-duplicated) recursive result
of get_all_views on its url_patterns list, and a leaf pattern contributes
its callback when it has one. -/
def get_all_views_entry : UrlEntry → List ViewFunc
  | UrlEntry.pattern none => []
  | UrlEntry.pattern (some v) => [v]
  | UrlEntry.resolver cs => (get_all_views_core cs).dedup

/-- The loop body of get_all_views: walk the given list of URL entries in
order, appending the contribution of each. The entry assertion of
get_all_views is embedded separately as get_all_views_assert, since it
tests the Python class of the argument, not the enumeration itself. -/
def get_all_views_core : UrlPatterns → List ViewFunc
  | UrlPatterns.nil => []
  | UrlPatterns.cons e rest => get_all_views_entry e ++ get_all_views_core rest
end

/-- get_all_views: collect the callbacks, then de-duplicate
(list(set(view_funcs)) in the source). -/
def get_all_views (urlpatterns : UrlPatterns) : List ViewFunc :=
  (get_all_views_core urlpatterns).dedup

/-- The runtime shape of the argument actually handed to get_all_views:
either a single pattern or resolver instance, or a Python list of such
entries. The module-level call passes the urlpatterns list of the root
URL configuration, and the recursive call passes the url_patterns list
of a resolver node, so both actual calls are of the second shape. -/
inductive PyArg where
  | entry (e : UrlEntry)
  | patternList (l : UrlPatterns)

/-- The entry assertion of get_all_views: isinstance of the argument
against the classes RegexURLPattern and RegexURLResolver. A single
pattern or resolver instance satisfies it; a Python list of entries is
an instance of neither class, so the test is false for it. -/
def get_all_views_assert (arg : PyArg) : Bool :=
  match arg with
  | PyArg.entry _ => true
  | PyArg.patternList _ => false

/-- get_view_name: the fully qualified name of the view function or
class. If the callable exposes a view_class attribute, the module and
name of that class are joined; otherwise the module and name of the
callable itself. -/
def get_view_name (view_func : ViewFunc) : String :=
  match view_func.view_class with
  | some c => c.module ++ "." ++ c.name
  | none => view_func.module ++ "." ++ view_func.name

/-- The translated view name chosen by handle_app_config: the dunder
attribute of the view class when the callable has a view class carrying
one, else the dunder attribute of the callable itself when the callable
has no view class but carries one, else the plain view name. -/
def view_name_trans (view_func : ViewFunc) : String :=
  match view_func.view_class with
  | some c =>
      match c.name_trans with
      | some t => t
      | none => get_view_name view_func
  | none =>
      match view_func.name_trans with
      | some t => t
      | none => get_view_name view_func

/-- Python str.startswith (also the codename__startswith queryset filter):
the second string is a prefix of the character sequence of the first. -/
def startswith (s pre : String) : Bool :=
  pre.data.isPrefixOf s.data

/-- A row of the Django permission store: the content type it is anchored
to (modelled by a numeric content-type id), its codename and its display
name. -/
structure Permission where
  content_type : Nat
  codename : String
  name : String
deriving DecidableEq, Repr

/-- Row predicate: the codename equals c (the filter used by the
ignore-list deletion in handle_app_config, which does not constrain the
content type). -/
def pcode (c : String) (p : Permission) : Bool :=
  p.codename == c

/-- Row predicate: anchored to content type ct and codename equal to c
(the filter used by every Permission.objects.get in the source). -/
def pctcode (ct : Nat) (c : String) (p : Permission) : Bool :=
  p.content_type == ct && p.codename == c

/-- The authenticated principal attached to the request: its
authentication flag and its has_perm method (applied by the middleware
to the string "auth." followed by the permission codename). -/
structure User where
  is_authenticated : Bool
  has_perm : String → Bool

/-- An incoming request as the middleware reads it: the user attribute
when the auth middleware ran (absent otherwise), and the view callable
the URL resolver maps the request path to (absent when resolution
raises Resolver404). -/
structure Request where
  user : Option User
  resolved : Option ViewFunc

/-- Terminal outcome of ViewPermissionMiddleware.process_request:
an ImproperlyConfigured exception, a PermissionDenied exception, or a
plain return letting the request continue. -/
inductive MwOutcome where
  | improperlyConfigured
  | denied
  | allow
deriving DecidableEq, Repr

/-- The view name the middleware derives: when the resolved callable has
a view_func attribute the callable is first replaced by that attribute,
then the module and name of the (possibly replaced) callable are
joined. -/
def mw_view_name (view : ViewFunc) : String :=
  match view.view_func with
  | some vf => vf.1 ++ "." ++ vf.2
  | none => view.module ++ "." ++ view.name

/-- The permission codename the middleware derives: the VIEW_PERMS_PREFIX
setting (defaulting to "access_view_" when the setting is absent)
followed by the derived view name. -/
def mw_perm_codename (settingsPrefix : Option String) (view : ViewFunc) : String :=
  settingsPrefix.getD "access_view_" ++ mw_view_name view

/-- ViewPermissionMiddleware.process_request. Arguments: the
VIEW_PERMS_PREFIX setting, the result of resolving the user-model
content type (absent on lookup failure), the permission store, and the
request. Mirrors the source order: missing user attribute raises
ImproperlyConfigured; content-type failure raises ImproperlyConfigured;
Resolver404 returns (allow); a permission lookup with no match returns
(allow); a lookup with one match binds the row and falls to the final
check; a lookup with several matches logs and likewise falls to the
final check; the final check raises PermissionDenied unless the user is
authenticated and has_perm grants the codename. -/
def process_request (settingsPrefix : Option String) (userCT : Option Nat)
    (store : List Permission) (request : Request) : MwOutcome :=
  match request.user with
  | none => MwOutcome.improperlyConfigured
  | some user =>
    match userCT with
    | none => MwOutcome.improperlyConfigured
    | some ct =>
      match request.resolved with
      | none => MwOutcome.allow
      | some view =>
        let perm_codename := mw_perm_codename settingsPrefix view
        match store.filter (pctcode ct perm_codename) with
        | [] => MwOutcome.allow
        | _ =>
          if !user.is_authenticated || !user.has_perm ("auth." ++ perm_codename)
          then MwOutcome.denied
          else MwOutcome.allow

/-- The options of the create_view_perms command that influence
handle_app_config: the verbosity level, the two mode flags and the
permission-codename prefix. The language option is absorbed into the
translation function passed to handle_app_config. -/
structure SyncOptions where
  verbosity : Int
  delete_perms : Bool
  prune_stale : Bool
  permPrefix : String

/-- Terminal outcome of one handle_app_config invocation: the final
store together with the reported count (created or deleted), or a fatal
error (CommandError or an uncaught exception). -/
inductive CmdOutcome where
  | ok (store : List Permission) (reported : Nat)
  | error
deriving DecidableEq, Repr

/-- The in-scope views of an application: the enumerated views whose
derived view name starts with the application package name. -/
def app_views_of (urlpatterns : UrlPatterns) (app_name : String) : List ViewFunc :=
  (get_all_views urlpatterns).filter (fun v => startswith (get_view_name v) app_name)

/-- One iteration of the create/update loop of handle_app_config over a
single view, threading the store and the created count. A view whose
name is in the ignore list is skipped; under verbosity at least 1 an
existing row with its codename (under any content type) is deleted
first, a duplicate row raising an uncaught MultipleObjectsReturned.
Otherwise the row with the derived codename under the user content type
is updated in place (display name recomputed), created when absent, and
a duplicate raises CommandError. -/
def createStep (ignore : List String) (pp : String) (verb : Int)
    (trans : String → String) (ct : Nat)
    (acc : List Permission × Nat) (v : ViewFunc) :
    Except Unit (List Permission × Nat) :=
  let view_name := get_view_name v
  let perm_codename := pp ++ view_name
  if ignore.contains view_name then
    if 1 ≤ verb then
      match acc.1.filter (pcode perm_codename) with
      | [] => Except.ok acc
      | [_] => Except.ok (acc.1.filter (fun p => !(pcode perm_codename p)), acc.2)
      | _ => Except.error ()
    else Except.ok acc
  else
    let nm := trans (view_name_trans v)
    match acc.1.filter (pctcode ct perm_codename) with
    | [] => Except.ok (acc.1 ++ [⟨ct, perm_codename, nm⟩], acc.2 + 1)
    | [_] => Except.ok
        (acc.1.map (fun p =>
          if pctcode ct perm_codename p then { p with name := nm } else p),
         acc.2)
    | _ => Except.error ()

/-- The create/update loop of handle_app_config: fold createStep over the
in-scope views in order, stopping at the first error. -/
def createRun (ignore : List String) (pp : String) (verb : Int)
    (trans : String → String) (ct : Nat) :
    List ViewFunc → (List Permission × Nat) → Except Unit (List Permission × Nat)
  | [], acc => Except.ok acc
  | v :: rest, acc =>
    match createStep ignore pp verb trans ct acc v with
    | Except.ok acc' => createRun ignore pp verb trans ct rest acc'
    | Except.error e => Except.error e

/-- Command.handle_app_config. Arguments: the command options, the
application package name, the VIEW_PERMS_IGNORE_LIST setting, the
translation function (the effect of activating the selected language on
the lazily translated display-name text), the resolved user-model
content type (absent on lookup failure, which raises CommandError), the
root urlpatterns list and the permission store. The three modes are
tried in source order: delete_perms removes every row under the user
content type whose codename starts with the prefix, the application
name and a dot, reporting how many rows matched; prune_stale removes
among those rows the ones whose codename is not among the codenames of
the in-scope views, reporting how many were deleted; otherwise the
create/update loop runs and reports the number of rows created. -/
def handle_app_config (opts : SyncOptions) (app_name : String)
    (ignore : List String) (trans : String → String) (userCT : Option Nat)
    (urlpatterns : UrlPatterns) (store : List Permission) : CmdOutcome :=
  let app_views := app_views_of urlpatterns app_name
  match userCT with
  | none => CmdOutcome.error
  | some ct =>
    if opts.delete_perms then
      let cand := fun p : Permission =>
        p.content_type == ct &&
          startswith p.codename (opts.permPrefix ++ app_name ++ ".")
      CmdOutcome.ok (store.filter (fun p => !(cand p))) (store.filter cand).length
    else if opts.prune_stale then
      let app_view_names := app_views.map (fun v => opts.permPrefix ++ get_view_name v)
      let doomed := fun p : Permission =>
        p.content_type == ct &&
          startswith p.codename (opts.permPrefix ++ app_name ++ ".") &&
          !(app_view_names.contains p.codename)
      CmdOutcome.ok (store.filter (fun p => !(doomed p))) (store.filter doomed).length
    else
      match createRun ignore opts.permPrefix opts.verbosity trans ct app_views (store, 0) with
      | Except.ok (s, n) => CmdOutcome.ok s n
      | Except.error _ => CmdOutcome.error

/-- A view callable is reachable in a URL-pattern tree when it is the
callback of a leaf pattern of the list, possibly inside nested resolver
nodes. -/
inductive ReachableView : UrlPatterns → ViewFunc → Prop
  | herePattern (v : ViewFunc) (rest : UrlPatterns) :
      ReachableView (UrlPatterns.cons (UrlEntry.pattern (some v)) rest) v
  | hereResolver (cs : UrlPatterns) (rest : UrlPatterns) (v : ViewFunc) :
      ReachableView cs v → ReachableView (UrlPatterns.cons (UrlEntry.resolver cs) rest) v
  | there (e : UrlEntry) (rest : UrlPatterns) (v : ViewFunc) :
      ReachableView rest v → ReachableView (UrlPatterns.cons e rest) v

/-- A view callable is reachable through a single URL entry: it is the
callback of the leaf pattern, or reachable in the url_patterns list of
the resolver. -/
def EntryReach : UrlEntry → ViewFunc → Prop
  | UrlEntry.pattern cb, v => cb = some v
  | UrlEntry.resolver cs, v => ReachableView cs v

/-- Row similarity used to reason about replayed create/update runs: the
rows agree on content type and codename, and their display names agree
unless the row is the row with codename c under content type ct (the
one row a later iteration over a view with that codename will rewrite
anyway). -/
def SimRow (ct : Nat) (c : String) (p q : Permission) : Prop :=
  p.content_type = q.content_type ∧ p.codename = q.codename ∧
    (p.name = q.name ∨ (p.content_type = ct ∧ p.codename = c))

/-- Store similarity: the two stores are rowwise similar in order. -/
inductive SimStores (ct : Nat) (c : String) : List Permission → List Permission → Prop
  | nil : SimStores ct c [] []
  | cons {p q : Permission} {t u : List Permission} :
      SimRow ct c p q → SimStores ct c t u →
      SimStores ct c (p :: t) (q :: u)

/-- Two filters in a row are one filter by the conjunction. -/
theorem filter_filter_own {α : Type} (q r : α → Bool) :
    ∀ l : List α, (l.filter r).filter q = l.filter (fun a => q a && r a) := by
  intro l
  induction l with
  | nil => rfl
  | cons a t ih =>
    by_cases hr : r a
    · by_cases hq : q a <;> simp [List.filter_cons, hr, hq, ih]
    · simp [List.filter_cons, hr, ih]

/-- Filtering is unchanged under a pointwise-equal predicate. -/
theorem filter_ext_mem {α : Type} {p q : α → Bool} :
    ∀ l : List α, (∀ a ∈ l, p a = q a) → l.filter p = l.filter q := by
  intro l
  induction l with
  | nil => intro _; rfl
  | cons a t ih =>
    intro h
    have ha := h a (List.mem_cons_self a t)
    by_cases hq : q a
    · simp [List.filter_cons, ha, hq, ih (fun b hb => h b (List.mem_cons_of_mem a hb))]
    · simp [List.filter_cons, ha, hq, ih (fun b hb => h b (List.mem_cons_of_mem a hb))]

/-- Mapping a function that fixes every member is the identity. -/
theorem map_eq_self_of_mem {α : Type} {f : α → α} :
    ∀ l : List α, (∀ a ∈ l, f a = a) → l.map f = l := by
  intro l
  induction l with
  | nil => intro _; rfl
  | cons a t ih =>
    intro h
    simp [h a (List.mem_cons_self a t),
      ih (fun b hb => h b (List.mem_cons_of_mem a hb))]

/-- A map that neither moves elements across the predicate nor changes
the elements satisfying it leaves the filtered list unchanged. -/
theorem filter_map_eq_filter {α : Type} {f : α → α} {q : α → Bool}
    (hq : ∀ a, q (f a) = q a) (hid : ∀ a, q a = true → f a = a) :
    ∀ l : List α, (l.map f).filter q = l.filter q := by
  intro l
  induction l with
  | nil => rfl
  | cons a t ih =>
    by_cases hqa : q a
    · simp [List.filter_cons, hq, hqa, hid a hqa, ih]
    · simp [List.filter_cons, hq, hqa, ih]

/-- A map that does not move elements across the predicate commutes with
the filter. -/
theorem filter_map_comm_own {α : Type} {f : α → α} {q : α → Bool}
    (hq : ∀ a, q (f a) = q a) :
    ∀ l : List α, (l.map f).filter q = (l.filter q).map f := by
  intro l
  induction l with
  | nil => rfl
  | cons a t ih =>
    by_cases hqa : q a
    · simp [List.filter_cons, hq, hqa, ih]
    · simp [List.filter_cons, hq, hqa, ih]

mutual

/-- Membership in the contribution of one URL entry is reachability
through that entry. -/
theorem mem_get_all_views_entry : ∀ (e : UrlEntry) (v : ViewFunc),
    v ∈ get_all_views_entry e ↔ EntryReach e v
  | UrlEntry.pattern none, v => by
      simp [get_all_views_entry, EntryReach]
  | UrlEntry.pattern (some w), v => by
      simp [get_all_views_entry, EntryReach, eq_comm]
  | UrlEntry.resolver cs, v => by
      rw [show get_all_views_entry (UrlEntry.resolver cs)
            = (get_all_views_core cs).dedup from rfl]
      rw [List.mem_dedup]
      exact mem_get_all_views_core cs v

/-- Membership in the collected callback list is reachability in the
URL-pattern tree. -/
theorem mem_get_all_views_core : ∀ (ps : UrlPatterns) (v : ViewFunc),
    v ∈ get_all_views_core ps ↔ ReachableView ps v
  | UrlPatterns.nil, v => by
      constructor
      · intro h
        exact absurd h (List.not_mem_nil v)
      · intro h
        exact nomatch h
  | UrlPatterns.cons e rest, v => by
      rw [show get_all_views_core (UrlPatterns.cons e rest)
            = get_all_views_entry e ++ get_all_views_core rest from rfl]
      rw [List.mem_append, mem_get_all_views_entry e v, mem_get_all_views_core rest v]
      constructor
      · rintro (he | hr)
        · cases e with
          | pattern cb =>
            have hcb : cb = some v := he
            rw [hcb]
            exact ReachableView.herePattern v rest
          | resolver cs =>
            exact ReachableView.hereResolver cs rest v he
        · exact ReachableView.there e rest v hr
      · intro h
        cases h with
        | herePattern _ _ =>
          left
          rfl
        | hereResolver _ _ _ hcs =>
          left
          exact hcs
        | there _ _ _ hr =>
          right
          exact hr

end

/-- Claim C8: for every URL-pattern routing tree, get_all_views returns a
duplicate-free collection of view callables, and a callable is in the
result exactly when it is reachable through some leaf pattern of the
tree, including the patterns of every nested resolver node (so duplicate
callables reachable via several patterns collapse to one entry). -/
theorem C8_enumerator_nodup_and_complete (ps : UrlPatterns) :
    (get_all_views ps).Nodup ∧
      ∀ v : ViewFunc, v ∈ get_all_views ps ↔ ReachableView ps v := by
  constructor
  · exact List.nodup_dedup _
  · intro v
    rw [show get_all_views ps = (get_all_views_core ps).dedup from rfl]
    rw [List.mem_dedup]
    exact mem_get_all_views_core ps v

/-- Claim C10: the entry assertion of get_all_views tests the Python
class of its argument, but both actual call sites (the module-level call
on the urlpatterns list of the root URL configuration, and the recursive
call on the url_patterns list of a resolver node) pass a list, which is
an instance of neither RegexURLPattern nor RegexURLResolver, so the
assertion is false at every actual call, contradicting the claim that
it is always satisfied. -/
theorem C10_assert_fails_on_actual_calls (l : UrlPatterns) :
    get_all_views_assert (PyArg.patternList l) = false := rfl

/-- Claim C4: the recorded code-bug input. The view a.v is in the ignore
list and a permission record with its codename exists. At verbosity 0 a
create/update run leaves the record in the store (the deletion of
ignore-listed records sits inside the verbosity guard), while the same
run at verbosity 1 deletes it, so the claimed property fails for
verbosity 0. -/
theorem C4_ignore_list_deletion_depends_on_verbosity :
    handle_app_config ⟨0, false, false, "access_view_"⟩ "a" ["a.v"] (fun s => s) (some 1)
        (UrlPatterns.cons (UrlEntry.pattern (some ⟨"a", "v", none, none, none⟩)) UrlPatterns.nil)
        [⟨1, "access_view_a.v", "n"⟩]
      = CmdOutcome.ok [⟨1, "access_view_a.v", "n"⟩] 0
    ∧ handle_app_config ⟨1, false, false, "access_view_"⟩ "a" ["a.v"] (fun s => s) (some 1)
        (UrlPatterns.cons (UrlEntry.pattern (some ⟨"a", "v", none, none, none⟩)) UrlPatterns.nil)
        [⟨1, "access_view_a.v", "n"⟩]
      = CmdOutcome.ok [] 0 := by
  constructor
  · decide
  · decide

/-- Claim C1: when the derived codename matches exactly one permission
record under the user-model content type, process_request denies the
request exactly when the principal is not authenticated or does not
hold the permission, and allows it otherwise. -/
theorem C1_single_permission_enforced (sp : Option String) (ct : Nat)
    (store : List Permission) (u : User) (v : ViewFunc)
    (h : (store.filter (pctcode ct (mw_perm_codename sp v))).length = 1) :
    process_request sp (some ct) store ⟨some u, some v⟩ =
      if !u.is_authenticated || !u.has_perm ("auth." ++ mw_perm_codename sp v)
      then MwOutcome.denied else MwOutcome.allow := by
  obtain ⟨p, hp⟩ := List.length_eq_one.mp h
  simp only [process_request, hp]

/-- Witness for C1 at a concrete input: one matching record, an
authenticated principal holding the permission, outcome allow. -/
theorem C1_witness :
    process_request none (some 1) [⟨1, "access_view_a.v", "x"⟩]
        ⟨some ⟨true, fun s => s == "auth.access_view_a.v"⟩, some ⟨"a", "v", none, none, none⟩⟩
      = MwOutcome.allow :=
  (C1_single_permission_enforced none 1 [⟨1, "access_view_a.v", "x"⟩]
      ⟨true, fun s => s == "auth.access_view_a.v"⟩ ⟨"a", "v", none, none, none⟩
      (by decide)).trans (by decide)

/-- Claim C2: when no permission record with the derived codename exists
under the user-model content type, process_request allows the request,
whatever the authentication state of the principal. -/
theorem C2_missing_permission_allows (sp : Option String) (ct : Nat)
    (store : List Permission) (u : User) (v : ViewFunc)
    (h : store.filter (pctcode ct (mw_perm_codename sp v)) = []) :
    process_request sp (some ct) store ⟨some u, some v⟩ = MwOutcome.allow := by
  simp only [process_request, h]

/-- Witness for C2 at a concrete input: empty store, anonymous principal,
outcome allow. -/
theorem C2_witness :
    process_request none (some 1) []
        ⟨some ⟨false, fun _ => false⟩, some ⟨"a", "v", none, none, none⟩⟩
      = MwOutcome.allow :=
  C2_missing_permission_allows none 1 [] ⟨false, fun _ => false⟩
    ⟨"a", "v", none, none, none⟩ (by decide)

/-- Counterexample to claim C3: two permission records share the derived
codename under the user content type and the principal is anonymous;
the claim says the middleware logs and allows, but process_request
denies the request. -/
theorem C3_counterexample :
    (([⟨1, "access_view_a.v", "x"⟩, ⟨1, "access_view_a.v", "y"⟩] :
        List Permission).filter
        (pctcode 1 (mw_perm_codename none ⟨"a", "v", none, none, none⟩))).length = 2
    ∧ process_request none (some 1)
        [⟨1, "access_view_a.v", "x"⟩, ⟨1, "access_view_a.v", "y"⟩]
        ⟨some ⟨false, fun _ => false⟩, some ⟨"a", "v", none, none, none⟩⟩
      = MwOutcome.denied := by
  constructor
  · decide
  · decide

/-- Claim C3 as amended: when the derived codename matches more than one
permission record under the user content type, process_request logs the
condition but then applies the same enforcement as the single-match
case: it denies the request exactly when the principal is not
authenticated or does not hold the permission, and allows it
otherwise. -/
theorem C3_duplicate_permission_enforces (sp : Option String) (ct : Nat)
    (store : List Permission) (u : User) (v : ViewFunc)
    (h : 2 ≤ (store.filter (pctcode ct (mw_perm_codename sp v))).length) :
    process_request sp (some ct) store ⟨some u, some v⟩ =
      if !u.is_authenticated || !u.has_perm ("auth." ++ mw_perm_codename sp v)
      then MwOutcome.denied else MwOutcome.allow := by
  cases hf : store.filter (pctcode ct (mw_perm_codename sp v)) with
  | nil =>
    rw [hf] at h
    exact absurd h (by decide)
  | cons a t =>
    simp only [process_request, hf]

/-- Witness for the amended C3 at a concrete input: two matching records,
an authenticated principal holding the permission, outcome allow. -/
theorem C3_witness :
    process_request none (some 1)
        [⟨1, "access_view_a.v", "x"⟩, ⟨1, "access_view_a.v", "y"⟩]
        ⟨some ⟨true, fun s => s == "auth.access_view_a.v"⟩, some ⟨"a", "v", none, none, none⟩⟩
      = MwOutcome.allow :=
  (C3_duplicate_permission_enforces none 1
      [⟨1, "access_view_a.v", "x"⟩, ⟨1, "access_view_a.v", "y"⟩]
      ⟨true, fun s => s == "auth.access_view_a.v"⟩ ⟨"a", "v", none, none, none⟩
      (by decide)).trans (by decide)

/-- Counterexample to claim C5: a callable exposing a bound view class.
The synchronizer (get_view_name) derives the name from the class while
the middleware (mw_view_name) derives it from the callable itself, so
the two codenames differ for equal prefixes. -/
theorem C5_counterexample :
    get_view_name ⟨"blog.views", "view", some ⟨"blog.views", "PostList", none⟩, none, none⟩
      = "blog.views.PostList"
    ∧ mw_view_name ⟨"blog.views", "view", some ⟨"blog.views", "PostList", none⟩, none, none⟩
      = "blog.views.view"
    ∧ "access_view_" ++
        get_view_name ⟨"blog.views", "view", some ⟨"blog.views", "PostList", none⟩, none, none⟩
      ≠ mw_perm_codename (some "access_view_")
          ⟨"blog.views", "view", some ⟨"blog.views", "PostList", none⟩, none, none⟩ := by
  refine ⟨rfl, rfl, ?_⟩
  decide

/-- Claim C5 as amended: for a callable exposing neither a bound view
class nor an inner-callable attribute, the synchronizer codename and the
middleware codename agree for equal prefixes; for a callable exposing a
bound view class, the synchronizer uses the module and name of the
class while the middleware uses the module and name of the callable
itself. -/
theorem C5_codenames_agree_for_plain_functions (pp : String) (v : ViewFunc)
    (hvf : v.view_func = none) :
    (v.view_class = none → pp ++ get_view_name v = mw_perm_codename (some pp) v)
    ∧ ∀ c : PyClass, v.view_class = some c →
        get_view_name v = c.module ++ "." ++ c.name
        ∧ mw_view_name v = v.module ++ "." ++ v.name := by
  constructor
  · intro hvc
    simp [get_view_name, mw_perm_codename, mw_view_name, hvc, hvf]
  · intro c hvc
    constructor
    · simp [get_view_name, hvc]
    · simp [mw_view_name, hvf]

/-- Witness for the amended C5 at a concrete input: a plain function
view, equal prefixes, equal codenames. -/
theorem C5_witness :
    "x" ++ get_view_name ⟨"a", "v", none, none, none⟩
      = mw_perm_codename (some "x") ⟨"a", "v", none, none, none⟩ :=
  (C5_codenames_agree_for_plain_functions "x" ⟨"a", "v", none, none, none⟩ rfl).1 rfl

/-- Counterexample to claim C6: the delete mode filters on prefix plus
application name plus a trailing dot. A record whose codename starts
with prefix plus application name but continues without the dot
(application blog, codename of application blogger) is kept by the
delete run, although the claim says every such record is removed. -/
theorem C6_counterexample :
    startswith "access_view_blogger.views.x" ("access_view_" ++ "blog") = true
    ∧ handle_app_config ⟨0, true, false, "access_view_"⟩ "blog" [] (fun s => s) (some 1)
        UrlPatterns.nil [⟨1, "access_view_blogger.views.x", "n"⟩]
      = CmdOutcome.ok [⟨1, "access_view_blogger.views.x", "n"⟩] 0 := by
  constructor
  · decide
  · decide

/-- Claim C6 as amended: a delete-mode run removes exactly the records
under the user content type whose codename starts with the prefix, the
application name and a dot, and reports how many such records there
were. -/
theorem C6_delete_mode_removes_dotted_prefix (verb : Int) (ps : Bool)
    (pp app_name : String) (ignore : List String) (trans : String → String)
    (ct : Nat) (urlpatterns : UrlPatterns) (store : List Permission) :
    ∃ s' : List Permission,
      handle_app_config ⟨verb, true, ps, pp⟩ app_name ignore trans (some ct) urlpatterns store
        = CmdOutcome.ok s'
            ((store.filter (fun p =>
              p.content_type == ct && startswith p.codename (pp ++ app_name ++ "."))).length)
      ∧ ∀ p : Permission, p ∈ s' ↔
          p ∈ store ∧
            ¬(p.content_type = ct ∧ startswith p.codename (pp ++ app_name ++ ".") = true) := by
  refine ⟨_, rfl, ?_⟩
  intro p
  simp [List.mem_filter, not_and, ← Bool.not_eq_true]
  tauto

/-- Counterexample to claim C7: a record that carries the configured
prefix but belongs to another application (application blog, codename of
application other) corresponds to no in-scope view of the application,
yet a prune-stale run keeps it, although the claim says exactly the
records without a corresponding view are removed. -/
theorem C7_counterexample :
    startswith "access_view_other.x" "access_view_" = true
    ∧ app_views_of UrlPatterns.nil "blog" = []
    ∧ handle_app_config ⟨0, false, true, "access_view_"⟩ "blog" [] (fun s => s) (some 1)
        UrlPatterns.nil [⟨1, "access_view_other.x", "n"⟩]
      = CmdOutcome.ok [⟨1, "access_view_other.x", "n"⟩] 0 := by
  refine ⟨by decide, rfl, by decide⟩

/-- Claim C7 as amended: a prune-stale run removes exactly the records
under the user content type whose codename starts with the prefix, the
application name and a dot and is not among the codenames of the
currently enumerated in-scope views, reports how many it removed, and
leaves every other record in the store unchanged. -/
theorem C7_prune_mode_removes_stale_dotted_prefix (verb : Int)
    (pp app_name : String) (ignore : List String) (trans : String → String)
    (ct : Nat) (urlpatterns : UrlPatterns) (store : List Permission) :
    ∃ s' : List Permission,
      handle_app_config ⟨verb, false, true, pp⟩ app_name ignore trans (some ct) urlpatterns store
        = CmdOutcome.ok s'
            ((store.filter (fun p =>
              p.content_type == ct && startswith p.codename (pp ++ app_name ++ ".") &&
                !(((app_views_of urlpatterns app_name).map
                    (fun v => pp ++ get_view_name v)).contains p.codename))).length)
      ∧ ∀ p : Permission, p ∈ s' ↔
          p ∈ store ∧
            ¬(p.content_type = ct ∧ startswith p.codename (pp ++ app_name ++ ".") = true ∧
              p.codename ∉ (app_views_of urlpatterns app_name).map
                (fun v => pp ++ get_view_name v)) := by
  refine ⟨_, rfl, ?_⟩
  intro p
  simp [List.mem_filter, not_and, ← Bool.not_eq_true]
  tauto

/-- One create/update iteration leaves the rows selected by a predicate
q untouched, provided q only selects rows of a codename c different
from the codename of the processed view and is blind to display
names. -/
theorem createStep_preserves (ignore : List String) (pp : String) (verb : Int)
    (trans : String → String) (ct : Nat) (q : Permission → Bool) (c : String)
    (hq_code : ∀ p : Permission, q p = true → p.codename = c)
    (hq_name : ∀ (p : Permission) (nm : String), q { p with name := nm } = q p)
    (v : ViewFunc) (hne : c ≠ pp ++ get_view_name v)
    (acc acc' : List Permission × Nat)
    (h : createStep ignore pp verb trans ct acc v = Except.ok acc') :
    acc'.1.filter q = acc.1.filter q := by
  have hrowq : q ⟨ct, pp ++ get_view_name v, trans (view_name_trans v)⟩ = false := by
    cases hq : q ⟨ct, pp ++ get_view_name v, trans (view_name_trans v)⟩
    · rfl
    · exact absurd (hq_code _ hq).symm hne
  simp only [createStep] at h
  by_cases hig : ignore.contains (get_view_name v) = true
  · rw [if_pos hig] at h
    by_cases hv : (1 : Int) ≤ verb
    · rw [if_pos hv] at h
      rcases hfe : acc.1.filter (pcode (pp ++ get_view_name v)) with _ | ⟨r, _ | ⟨r2, t2⟩⟩
      · simp only [hfe, Except.ok.injEq] at h
        rw [← h]
      · simp only [hfe, Except.ok.injEq] at h
        rw [← h]
        rw [filter_filter_own]
        apply filter_ext_mem
        intro a _
        cases hqa : q a
        · simp
        · have hcn : a.codename = c := hq_code a hqa
          have : pcode (pp ++ get_view_name v) a = false := by
            simp [pcode, hcn]
            exact hne
          simp [this]
      · simp only [hfe] at h
        exact Except.noConfusion h
    · rw [if_neg hv] at h
      simp only [Except.ok.injEq] at h
      rw [← h]
  · rw [if_neg hig] at h
    rcases hfe : acc.1.filter (pctcode ct (pp ++ get_view_name v)) with _ | ⟨r, _ | ⟨r2, t2⟩⟩
    · simp only [hfe, Except.ok.injEq] at h
      rw [← h]
      rw [List.filter_append]
      simp [hrowq]
    · simp only [hfe, Except.ok.injEq] at h
      rw [← h]
      apply filter_map_eq_filter
      · intro a
        by_cases hpa : pctcode ct (pp ++ get_view_name v) a = true
        · rw [if_pos hpa]
          exact hq_name a (trans (view_name_trans v))
        · rw [if_neg hpa]
      · intro a ha
        have hcn : a.codename = c := hq_code a ha
        have : pctcode ct (pp ++ get_view_name v) a = false := by
          simp [pctcode, hcn]
          intro _
          exact hne
        rw [if_neg (by simp [this])]
    · simp only [hfe] at h
      exact Except.noConfusion h

/-- A whole create/update run leaves the rows selected by such a
predicate untouched when the codename c belongs to none of the
processed views. -/
theorem createRun_preserves (ignore : List String) (pp : String) (verb : Int)
    (trans : String → String) (ct : Nat) (q : Permission → Bool) (c : String)
    (hq_code : ∀ p : Permission, q p = true → p.codename = c)
    (hq_name : ∀ (p : Permission) (nm : String), q { p with name := nm } = q p) :
    ∀ (views : List ViewFunc) (acc acc' : List Permission × Nat),
      (∀ w ∈ views, c ≠ pp ++ get_view_name w) →
      createRun ignore pp verb trans ct views acc = Except.ok acc' →
      acc'.1.filter q = acc.1.filter q := by
  intro views
  induction views with
  | nil =>
    intro acc acc' _ h
    simp only [createRun, Except.ok.injEq] at h
    rw [← h]
  | cons v rest ih =>
    intro acc acc' hne h
    simp only [createRun] at h
    cases hs : createStep ignore pp verb trans ct acc v with
    | error e =>
      simp only [hs] at h
      exact Except.noConfusion h
    | ok acc1 =>
      simp only [hs] at h
      have h1 := createStep_preserves ignore pp verb trans ct q c hq_code hq_name v
        (hne v (List.mem_cons_self v rest)) acc acc1 hs
      have h2 := ih acc1 acc' (fun w hw => hne w (List.mem_cons_of_mem v hw)) h
      rw [h2, h1]

/-- After one create/update iteration over a view not in the ignore
list, the store holds exactly one row with the codename of the view
under the user content type, named by the freshly computed display
name. -/
theorem createStep_sets_row (ignore : List String) (pp : String) (verb : Int)
    (trans : String → String) (ct : Nat) (v : ViewFunc)
    (acc acc' : List Permission × Nat)
    (hig : ignore.contains (get_view_name v) = false)
    (h : createStep ignore pp verb trans ct acc v = Except.ok acc') :
    acc'.1.filter (pctcode ct (pp ++ get_view_name v)) =
      [⟨ct, pp ++ get_view_name v, trans (view_name_trans v)⟩] := by
  simp only [createStep, hig, Bool.false_eq_true, if_false] at h
  rcases hfe : acc.1.filter (pctcode ct (pp ++ get_view_name v)) with _ | ⟨r, _ | ⟨r2, t2⟩⟩
  · simp only [hfe, Except.ok.injEq] at h
    rw [← h]
    rw [List.filter_append, hfe]
    simp [pctcode]
  · have hr : pctcode ct (pp ++ get_view_name v) r = true := by
      have : r ∈ acc.1.filter (pctcode ct (pp ++ get_view_name v)) := by
        rw [hfe]
        exact List.mem_singleton.mpr rfl
      exact (List.mem_filter.mp this).2
    simp only [hfe, Except.ok.injEq] at h
    rw [← h]
    rw [filter_map_comm_own]
    · rw [hfe]
      simp only [List.map_cons, List.map_nil, if_pos hr]
      simp only [pctcode, Bool.and_eq_true, beq_iff_eq] at hr
      rw [show ({ r with name := trans (view_name_trans v) } : Permission)
            = ⟨r.content_type, r.codename, trans (view_name_trans v)⟩ from rfl]
      rw [hr.1, hr.2]
    · intro a
      by_cases hpa : pctcode ct (pp ++ get_view_name v) a = true
      · rw [if_pos hpa]
        rfl
      · rw [if_neg hpa]
  · simp only [hfe] at h
    exact Except.noConfusion h

/-- After one create/update iteration over an ignore-listed view at
verbosity at least 1, no row with the codename of the view remains. -/
theorem createStep_clears_ignored (ignore : List String) (pp : String) (verb : Int)
    (trans : String → String) (ct : Nat) (v : ViewFunc)
    (acc acc' : List Permission × Nat)
    (hig : ignore.contains (get_view_name v) = true) (hv : (1 : Int) ≤ verb)
    (h : createStep ignore pp verb trans ct acc v = Except.ok acc') :
    acc'.1.filter (pcode (pp ++ get_view_name v)) = [] := by
  simp only [createStep, hig, if_true, if_pos hv] at h
  rcases hfe : acc.1.filter (pcode (pp ++ get_view_name v)) with _ | ⟨r, _ | ⟨r2, t2⟩⟩
  · simp only [hfe, Except.ok.injEq] at h
    rw [← h]
    exact hfe
  · simp only [hfe, Except.ok.injEq] at h
    rw [← h]
    rw [filter_filter_own]
    rw [filter_ext_mem acc.1 (q := fun _ => false) (fun a _ => by simp)]
    exact List.filter_false acc.1
  · simp only [hfe] at h
    exact Except.noConfusion h

/-- A create/update iteration over a view not in the ignore list is the
identity when the store already holds exactly the row the iteration
would write. -/
theorem createStep_id_of_row (ignore : List String) (pp : String) (verb : Int)
    (trans : String → String) (ct : Nat) (v : ViewFunc)
    (acc : List Permission × Nat)
    (hig : ignore.contains (get_view_name v) = false)
    (hrow : acc.1.filter (pctcode ct (pp ++ get_view_name v)) =
      [⟨ct, pp ++ get_view_name v, trans (view_name_trans v)⟩]) :
    createStep ignore pp verb trans ct acc v = Except.ok acc := by
  have hmap : acc.1.map (fun p => if pctcode ct (pp ++ get_view_name v) p
      then { p with name := trans (view_name_trans v) } else p) = acc.1 := by
    apply map_eq_self_of_mem
    intro p hp
    by_cases hpp : pctcode ct (pp ++ get_view_name v) p = true
    · have hmem : p ∈ acc.1.filter (pctcode ct (pp ++ get_view_name v)) :=
        List.mem_filter.mpr ⟨hp, hpp⟩
      rw [hrow] at hmem
      rw [if_pos hpp, List.mem_singleton.mp hmem]
    · rw [if_neg hpp]
  simp only [createStep, hig, Bool.false_eq_true, if_false, hrow, hmap]

/-- A create/update iteration over an ignore-listed view is the identity
when, at verbosity at least 1, no row with its codename exists (at
lower verbosity it is always the identity). -/
theorem createStep_id_ignored (ignore : List String) (pp : String) (verb : Int)
    (trans : String → String) (ct : Nat) (v : ViewFunc)
    (acc : List Permission × Nat)
    (hig : ignore.contains (get_view_name v) = true)
    (hrow : (1 : Int) ≤ verb → acc.1.filter (pcode (pp ++ get_view_name v)) = []) :
    createStep ignore pp verb trans ct acc v = Except.ok acc := by
  by_cases hv : (1 : Int) ≤ verb
  · simp only [createStep, hig, if_true, if_pos hv, hrow hv]
  · simp only [createStep, hig, if_true, if_neg hv]

/-- Appending to a fixed string on the left is injective, so equal
derived codenames come from equal view names. -/
theorem append_left_cancel_own (pp a b : String) (h : pp ++ a = pp ++ b) : a = b := by
  have hd : pp.data ++ a.data = pp.data ++ b.data := by
    have := congrArg String.data h
    simpa [String.data_append] using this
  have hab : a.data = b.data := List.append_cancel_left hd
  cases a
  cases b
  simp only [] at hab
  exact congrArg String.mk hab

/-- Similar rows satisfy the same codename predicate. -/
theorem simrow_pcode {ct : Nat} {c : String} {p q : Permission}
    (hr : SimRow ct c p q) (c' : String) : pcode c' p = pcode c' q := by
  obtain ⟨_, h2, _⟩ := hr
  simp [pcode, h2]

/-- Similar rows satisfy the same content-type-and-codename predicate. -/
theorem simrow_pctcode {ct : Nat} {c : String} {p q : Permission}
    (hr : SimRow ct c p q) (ct' : Nat) (c' : String) :
    pctcode ct' c' p = pctcode ct' c' q := by
  obtain ⟨h1, h2, _⟩ := hr
  simp [pctcode, h1, h2]

/-- Similarity is preserved by filtering with any predicate that cannot
tell similar rows apart. -/
theorem sim_stores_filter (ct : Nat) (c : String) (pr : Permission → Bool)
    (hpr : ∀ p q : Permission, SimRow ct c p q → pr p = pr q) :
    ∀ {t u : List Permission}, SimStores ct c t u →
      SimStores ct c (t.filter pr) (u.filter pr) := by
  intro t u h
  induction h with
  | nil => exact SimStores.nil
  | @cons p q t' u' hr ht ih =>
    rw [List.filter_cons, List.filter_cons, ← hpr p q hr]
    cases hp : pr p
    · simpa [hp] using ih
    · simpa [hp] using SimStores.cons hr ih

/-- Only the empty store is similar to the empty store. -/
theorem sim_stores_nil_right (ct : Nat) (c : String) {u : List Permission}
    (h : SimStores ct c [] u) : u = [] := by
  cases h
  rfl

/-- A store similar to a one-row store is a one-row store with a similar
row. -/
theorem sim_stores_singleton (ct : Nat) (c : String) {r : Permission}
    {u : List Permission} (h : SimStores ct c [r] u) :
    ∃ r', u = [r'] ∧ SimRow ct c r r' := by
  cases h with
  | cons hr ht =>
    cases ht
    exact ⟨_, rfl, hr⟩

/-- Similarity is preserved by appending the same created row to both
stores. -/
theorem sim_stores_append_row (ct : Nat) (c : String) :
    ∀ {t u : List Permission}, SimStores ct c t u →
      ∀ row : Permission, SimStores ct c (t ++ [row]) (u ++ [row]) := by
  intro t u h
  induction h with
  | nil =>
    intro row
    exact SimStores.cons ⟨rfl, rfl, Or.inl rfl⟩ SimStores.nil
  | cons hr ht ih =>
    intro row
    exact SimStores.cons hr (ih row)

/-- Rewriting the display name of the distinguished row in two similar
stores yields equal stores: the one allowed name mismatch is
overwritten on both sides, and all other rows are equal. -/
theorem sim_map_writer_eq (ct : Nat) (c nm : String) :
    ∀ {t u : List Permission}, SimStores ct c t u →
      t.map (fun p => if pctcode ct c p then { p with name := nm } else p)
        = u.map (fun p => if pctcode ct c p then { p with name := nm } else p) := by
  intro t u h
  induction h with
  | nil => rfl
  | @cons p q t' u' hr ht ih =>
    simp only [List.map_cons]
    rw [ih]
    have hhead : (if pctcode ct c p then { p with name := nm } else p)
        = (if pctcode ct c q then { q with name := nm } else q) := by
      by_cases hpc : pctcode ct c p = true
      · have hq : pctcode ct c q = true := (simrow_pctcode hr ct c) ▸ hpc
        rw [if_pos hpc, if_pos hq]
        obtain ⟨h1, h2, _⟩ := hr
        cases p
        cases q
        simp_all
      · have hpcf : pctcode ct c p = false := by simpa using hpc
        have hq : pctcode ct c q = false := (simrow_pctcode hr ct c) ▸ hpcf
        rw [if_neg hpc, if_neg (by simp [hq])]
        obtain ⟨h1, h2, h3⟩ := hr
        cases h3 with
        | inl hnm =>
          cases p
          cases q
          simp_all
        | inr hmm =>
          exfalso
          simp [pctcode, hmm.1, hmm.2] at hpcf
    rw [hhead]

/-- Similarity is preserved by a display-name update keyed by any
content type and codename (both sides update the same rows to the same
name). -/
theorem sim_stores_map_update (ct : Nat) (c : String) (ct' : Nat) (c' nm : String) :
    ∀ {t u : List Permission}, SimStores ct c t u →
      SimStores ct c
        (t.map (fun p => if pctcode ct' c' p then { p with name := nm } else p))
        (u.map (fun p => if pctcode ct' c' p then { p with name := nm } else p)) := by
  intro t u h
  induction h with
  | nil => exact SimStores.nil
  | @cons p q t' u' hr ht ih =>
    simp only [List.map_cons]
    refine SimStores.cons ?_ ih
    by_cases hpc : pctcode ct' c' p = true
    · have hq : pctcode ct' c' q = true := (simrow_pctcode hr ct' c') ▸ hpc
      rw [if_pos hpc, if_pos hq]
      exact ⟨hr.1, hr.2.1, Or.inl rfl⟩
    · have hpcf : pctcode ct' c' p = false := by simpa using hpc
      have hq : pctcode ct' c' q = false := (simrow_pctcode hr ct' c') ▸ hpcf
      rw [if_neg hpc, if_neg (by simp [hq])]
      exact hr

/-- A store is similar to itself with the name of the distinguished row
rewritten: the rewrite touches only rows matching content type ct and
codename c, exactly where similarity allows a name mismatch. -/
theorem sim_self_map_update (ct : Nat) (c nm : String) :
    ∀ t : List Permission,
      SimStores ct c t
        (t.map (fun p => if pctcode ct c p then { p with name := nm } else p)) := by
  intro t
  induction t with
  | nil => exact SimStores.nil
  | cons p t' ih =>
    simp only [List.map_cons]
    refine SimStores.cons ?_ ih
    by_cases hpc : pctcode ct c p = true
    · rw [if_pos hpc]
      refine ⟨rfl, rfl, Or.inr ?_⟩
      simp only [pctcode, Bool.and_eq_true, beq_iff_eq] at hpc
      exact hpc
    · rw [if_neg hpc]
      exact ⟨rfl, rfl, Or.inl rfl⟩

/-- Two similar stores without any row of the distinguished content type
and codename are equal: the only name mismatch similarity allows would
be on such a row. -/
theorem sim_eq_of_no_row (ct : Nat) (c : String) :
    ∀ {t u : List Permission}, SimStores ct c t u →
      t.filter (pctcode ct c) = [] → t = u := by
  intro t u h
  induction h with
  | nil => intro _; rfl
  | @cons p q t' u' hr ht ih =>
    intro hf
    rw [List.filter_cons] at hf
    cases hpc : pctcode ct c p with
    | true =>
      rw [hpc] at hf
      simp at hf
    | false =>
      rw [hpc] at hf
      simp only [Bool.false_eq_true, if_false] at hf
      have hpq : p = q := by
        obtain ⟨h1, h2, h3⟩ := hr
        cases h3 with
        | inl hnm =>
          cases p
          cases q
          simp_all
        | inr hmm =>
          exfalso
          simp [pctcode, hmm.1, hmm.2] at hpc
      rw [hpq, ih hf]

/-- A create/update run keeps the store free of rows with codename c
when every processed view with codename c is in the ignore list: such
iterations only ever delete rows with that codename, and iterations
over other views never touch it. -/
theorem createRun_keeps_empty (ignore : List String) (pp : String) (verb : Int)
    (trans : String → String) (ct : Nat) (c : String) :
    ∀ (views : List ViewFunc) (acc acc' : List Permission × Nat),
      createRun ignore pp verb trans ct views acc = Except.ok acc' →
      (∀ w ∈ views, pp ++ get_view_name w = c →
        ignore.contains (get_view_name w) = true) →
      acc.1.filter (pcode c) = [] →
      acc'.1.filter (pcode c) = [] := by
  intro views
  induction views with
  | nil =>
    intro acc acc' h _ hemp
    simp only [createRun, Except.ok.injEq] at h
    rw [← h]
    exact hemp
  | cons w rest ih =>
    intro acc acc' h hign hemp
    simp only [createRun] at h
    cases hs : createStep ignore pp verb trans ct acc w with
    | error e =>
      simp only [hs] at h
      exact Except.noConfusion h
    | ok acc1 =>
      simp only [hs] at h
      by_cases hwc : pp ++ get_view_name w = c
      · have hig := hign w (List.mem_cons_self w rest) hwc
        have hid := createStep_id_ignored ignore pp verb trans ct w acc hig
          (fun _ => by rw [hwc]; exact hemp)
        rw [hid] at hs
        injection hs with h2
        subst h2
        exact ih acc acc' h (fun x hx hc => hign x (List.mem_cons_of_mem w hx) hc) hemp
      · have h1 := createStep_preserves ignore pp verb trans ct (pcode c) c
          (fun p hp => by simpa [pcode] using hp) (fun p nm => rfl)
          w (fun hcc => hwc hcc.symm) acc acc1 hs
        exact ih acc1 acc' h (fun x hx hc => hign x (List.mem_cons_of_mem w hx) hc)
          (h1.trans hemp)

/-- A create/update run keeps the store holding exactly one row with
codename c under the user content type when every processed view with
codename c is outside the ignore list: such iterations rewrite that one
row in place (possibly renaming it), and iterations over other views
never touch it. -/
theorem createRun_keeps_row (ignore : List String) (pp : String) (verb : Int)
    (trans : String → String) (ct : Nat) (c : String) :
    ∀ (views : List ViewFunc) (acc acc' : List Permission × Nat),
      createRun ignore pp verb trans ct views acc = Except.ok acc' →
      (∀ w ∈ views, pp ++ get_view_name w = c →
        ignore.contains (get_view_name w) = false) →
      (∃ nm : String, acc.1.filter (pctcode ct c) = [⟨ct, c, nm⟩]) →
      ∃ nm' : String, acc'.1.filter (pctcode ct c) = [⟨ct, c, nm'⟩] := by
  intro views
  induction views with
  | nil =>
    intro acc acc' h _ hrow
    simp only [createRun, Except.ok.injEq] at h
    rw [← h]
    exact hrow
  | cons w rest ih =>
    intro acc acc' h hnig hrow
    simp only [createRun] at h
    cases hs : createStep ignore pp verb trans ct acc w with
    | error e =>
      simp only [hs] at h
      exact Except.noConfusion h
    | ok acc1 =>
      simp only [hs] at h
      by_cases hwc : pp ++ get_view_name w = c
      · have hig := hnig w (List.mem_cons_self w rest) hwc
        have h3 := createStep_sets_row ignore pp verb trans ct w acc acc1 hig hs
        rw [hwc] at h3
        exact ih acc1 acc' h (fun x hx hc => hnig x (List.mem_cons_of_mem w hx) hc)
          ⟨trans (view_name_trans w), h3⟩
      · obtain ⟨nm0, hr0⟩ := hrow
        have h1 := createStep_preserves ignore pp verb trans ct (pctcode ct c) c
          (fun p hp => by
            simp only [pctcode, Bool.and_eq_true, beq_iff_eq] at hp
            exact hp.2)
          (fun p nm => rfl)
          w (fun hcc => hwc hcc.symm) acc acc1 hs
        exact ih acc1 acc' h (fun x hx hc => hnig x (List.mem_cons_of_mem w hx) hc)
          ⟨nm0, h1.trans hr0⟩

/-- Simulation: a create/update run is insensitive to the display name
of the one row similarity distinguishes, as long as some later
iteration rewrites that row (a non-ignored view with that codename
remains in the list). Branch decisions only inspect content types and
codenames, which similar stores share, and the pending writer
overwrites the one allowed name difference, after which the two
executions coincide. -/
theorem createRun_sim (ignore : List String) (pp : String) (verb : Int)
    (trans : String → String) (ct : Nat) (c : String) :
    ∀ (views : List ViewFunc) (t u : List Permission) (j : Nat)
      (out : List Permission × Nat),
      createRun ignore pp verb trans ct views (t, j) = Except.ok out →
      SimStores ct c t u →
      (∃ w, w ∈ views ∧ ignore.contains (get_view_name w) = false ∧
        pp ++ get_view_name w = c) →
      createRun ignore pp verb trans ct views (u, j) = Except.ok out := by
  intro views
  induction views with
  | nil =>
    intro t u j out _ _ hwr
    obtain ⟨w, hw, _⟩ := hwr
    exact absurd hw (List.not_mem_nil w)
  | cons w rest ih =>
    intro t u j out h hsim hwr
    simp only [createRun] at h ⊢
    by_cases hwc : pp ++ get_view_name w = c
    · have hig : ignore.contains (get_view_name w) = false := by
        obtain ⟨w', _, hig', hc'⟩ := hwr
        rw [append_left_cancel_own pp _ _ (hwc.trans hc'.symm)]
        exact hig'
      rcases hfe : t.filter (pctcode ct c) with _ | ⟨r, _ | ⟨r2, t2⟩⟩
      · rw [← sim_eq_of_no_row ct c hsim hfe]
        exact h
      · obtain ⟨r', hfu, _⟩ : ∃ r', u.filter (pctcode ct c) = [r'] ∧ SimRow ct c r r' := by
          have hh := sim_stores_filter ct c (pctcode ct c)
            (fun p q hr => simrow_pctcode hr ct c) hsim
          rw [hfe] at hh
          exact sim_stores_singleton ct c hh
        simp only [createStep, hig, Bool.false_eq_true, if_false, hwc, hfe] at h
        simp only [createStep, hig, Bool.false_eq_true, if_false, hwc, hfu]
        rw [← sim_map_writer_eq ct c (trans (view_name_trans w)) hsim]
        exact h
      · simp only [createStep, hig, Bool.false_eq_true, if_false, hwc, hfe] at h
        exact Except.noConfusion h
    · have hwr' : ∃ w', w' ∈ rest ∧ ignore.contains (get_view_name w') = false ∧
          pp ++ get_view_name w' = c := by
        obtain ⟨w', hw', hig', hc'⟩ := hwr
        cases List.mem_cons.mp hw' with
        | inl heq => exact absurd (heq ▸ hc') hwc
        | inr hmem => exact ⟨w', hmem, hig', hc'⟩
      by_cases hig : ignore.contains (get_view_name w) = true
      · by_cases hv : (1 : Int) ≤ verb
        · rcases hfe : t.filter (pcode (pp ++ get_view_name w)) with _ | ⟨r, _ | ⟨r2, t2⟩⟩
          · have hfu : u.filter (pcode (pp ++ get_view_name w)) = [] := by
              have hh := sim_stores_filter ct c (pcode (pp ++ get_view_name w))
                (fun p q hr => simrow_pcode hr _) hsim
              rw [hfe] at hh
              exact sim_stores_nil_right ct c hh
            simp only [createStep, hig, if_true, if_pos hv, hfe] at h
            simp only [createStep, hig, if_true, if_pos hv, hfu]
            exact ih t u j out h hsim hwr'
          · obtain ⟨r', hfu, _⟩ : ∃ r', u.filter (pcode (pp ++ get_view_name w)) = [r']
                ∧ SimRow ct c r r' := by
              have hh := sim_stores_filter ct c (pcode (pp ++ get_view_name w))
                (fun p q hr => simrow_pcode hr _) hsim
              rw [hfe] at hh
              exact sim_stores_singleton ct c hh
            simp only [createStep, hig, if_true, if_pos hv, hfe] at h
            simp only [createStep, hig, if_true, if_pos hv, hfu]
            refine ih _ _ j out h ?_ hwr'
            exact sim_stores_filter ct c (fun p => !(pcode (pp ++ get_view_name w) p))
              (fun p q hr => by simp only [simrow_pcode hr (pp ++ get_view_name w)]) hsim
          · simp only [createStep, hig, if_true, if_pos hv, hfe] at h
            exact Except.noConfusion h
        · simp only [createStep, hig, if_true, if_neg hv] at h
          simp only [createStep, hig, if_true, if_neg hv]
          exact ih t u j out h hsim hwr'
      · have hig2 : ignore.contains (get_view_name w) = false := by
          cases hcc : ignore.contains (get_view_name w)
          · rfl
          · exact absurd hcc hig
        rcases hfe : t.filter (pctcode ct (pp ++ get_view_name w)) with _ | ⟨r, _ | ⟨r2, t2⟩⟩
        · have hfu : u.filter (pctcode ct (pp ++ get_view_name w)) = [] := by
            have hh := sim_stores_filter ct c (pctcode ct (pp ++ get_view_name w))
              (fun p q hr => simrow_pctcode hr _ _) hsim
            rw [hfe] at hh
            exact sim_stores_nil_right ct c hh
          simp only [createStep, hig2, Bool.false_eq_true, if_false, hfe] at h
          simp only [createStep, hig2, Bool.false_eq_true, if_false, hfu]
          exact ih _ _ (j + 1) out h (sim_stores_append_row ct c hsim _) hwr'
        · obtain ⟨r', hfu, _⟩ : ∃ r', u.filter (pctcode ct (pp ++ get_view_name w)) = [r']
              ∧ SimRow ct c r r' := by
            have hh := sim_stores_filter ct c (pctcode ct (pp ++ get_view_name w))
              (fun p q hr => simrow_pctcode hr _ _) hsim
            rw [hfe] at hh
            exact sim_stores_singleton ct c hh
          simp only [createStep, hig2, Bool.false_eq_true, if_false, hfe] at h
          simp only [createStep, hig2, Bool.false_eq_true, if_false, hfu]
          exact ih _ _ j out h
            (sim_stores_map_update ct c ct (pp ++ get_view_name w)
              (trans (view_name_trans w)) hsim) hwr'
        · simp only [createStep, hig2, Bool.false_eq_true, if_false, hfe] at h
          exact Except.noConfusion h

/-- Replaying a successful create/update run on its own result store is
the identity and creates nothing. An iteration over an ignore-listed
view finds no row to delete (the first run removed it and only
ignore-listed iterations, which never recreate rows, share its
codename). An iteration over any other view finds the one row the first
run left and rewrites it in place; if a later iteration shares the
codename, it restores the display name, and otherwise the rewrite is
already the identity. -/
theorem createRun_idem (ignore : List String) (pp : String) (verb : Int)
    (trans : String → String) (ct : Nat) :
    ∀ (views : List ViewFunc) (acc : List Permission × Nat)
      (s1 : List Permission) (n : Nat),
      createRun ignore pp verb trans ct views acc = Except.ok (s1, n) →
      ∀ k : Nat, createRun ignore pp verb trans ct views (s1, k) = Except.ok (s1, k) := by
  intro views
  induction views with
  | nil =>
    intro acc s1 n _ k
    rfl
  | cons v rest ih =>
    intro acc s1 n h k
    simp only [createRun] at h
    cases hs : createStep ignore pp verb trans ct acc v with
    | error e =>
      simp only [hs] at h
      exact Except.noConfusion h
    | ok acc1 =>
      simp only [hs] at h
      by_cases hig : ignore.contains (get_view_name v) = true
      · have hstep : createStep ignore pp verb trans ct (s1, k) v = Except.ok (s1, k) := by
          apply createStep_id_ignored ignore pp verb trans ct v (s1, k) hig
          intro hv
          have h3 := createStep_clears_ignored ignore pp verb trans ct v acc acc1 hig hv hs
          exact createRun_keeps_empty ignore pp verb trans ct (pp ++ get_view_name v)
            rest acc1 (s1, n) h
            (fun w hw hc => by
              rw [append_left_cancel_own pp _ _ hc]
              exact hig)
            h3
        simp only [createRun, hstep]
        exact ih acc1 s1 n h k
      · have hig2 : ignore.contains (get_view_name v) = false := by
          cases hcc : ignore.contains (get_view_name v)
          · rfl
          · exact absurd hcc hig
        have h3 := createStep_sets_row ignore pp verb trans ct v acc acc1 hig2 hs
        by_cases hex : ∃ w, w ∈ rest ∧ pp ++ get_view_name w = pp ++ get_view_name v
        · obtain ⟨nm', hrow⟩ := createRun_keeps_row ignore pp verb trans ct
            (pp ++ get_view_name v) rest acc1 (s1, n) h
            (fun w hw hc => by
              rw [append_left_cancel_own pp _ _ hc]
              exact hig2)
            ⟨trans (view_name_trans v), h3⟩
          have hstep : createStep ignore pp verb trans ct (s1, k) v
              = Except.ok (s1.map (fun p => if pctcode ct (pp ++ get_view_name v) p
                  then { p with name := trans (view_name_trans v) } else p), k) := by
            simp only [createStep, hig2, Bool.false_eq_true, if_false, hrow]
          simp only [createRun, hstep]
          obtain ⟨w, hw, hwc⟩ := hex
          have hwin : ignore.contains (get_view_name w) = false := by
            rw [append_left_cancel_own pp _ _ hwc]
            exact hig2
          exact createRun_sim ignore pp verb trans ct (pp ++ get_view_name v)
            rest s1 _ k (s1, k) (ih acc1 s1 n h k)
            (sim_self_map_update ct (pp ++ get_view_name v) (trans (view_name_trans v)) s1)
            ⟨w, hw, hwin, hwc⟩
        · have hne : ∀ w ∈ rest, pp ++ get_view_name v ≠ pp ++ get_view_name w :=
            fun w hw heq => hex ⟨w, hw, heq.symm⟩
          have h4 := createRun_preserves ignore pp verb trans ct
            (pctcode ct (pp ++ get_view_name v)) (pp ++ get_view_name v)
            (fun p hp => by
              simp only [pctcode, Bool.and_eq_true, beq_iff_eq] at hp
              exact hp.2)
            (fun p nm => rfl)
            rest acc1 (s1, n) hne h
          have hstep := createStep_id_of_row ignore pp verb trans ct v (s1, k) hig2
            (h4.trans h3)
          simp only [createRun, hstep]
          exact ih acc1 s1 n h k

/-- Claim C9: running the create/update mode of handle_app_config twice
in succession with identical options, ignore list, translation, content
type, routing tree and intervening store is idempotent: when the first
run succeeds, the second run returns the same store unchanged (display
names included, the translation being unchanged) and reports zero
created permissions. -/
theorem C9_create_update_idempotent (verb : Int) (pp app_name : String)
    (ignore : List String) (trans : String → String) (ct : Nat)
    (urlpatterns : UrlPatterns) (store store1 : List Permission) (n : Nat)
    (h : handle_app_config ⟨verb, false, false, pp⟩ app_name ignore trans (some ct)
        urlpatterns store = CmdOutcome.ok store1 n) :
    handle_app_config ⟨verb, false, false, pp⟩ app_name ignore trans (some ct)
        urlpatterns store1 = CmdOutcome.ok store1 0 := by
  simp only [handle_app_config, Bool.false_eq_true, if_false] at h ⊢
  cases hr : createRun ignore pp verb trans ct (app_views_of urlpatterns app_name)
      (store, 0) with
  | error e =>
    simp only [hr] at h
    exact CmdOutcome.noConfusion h
  | ok sn =>
    obtain ⟨s, m⟩ := sn
    simp only [hr, CmdOutcome.ok.injEq] at h
    obtain ⟨h1, h2⟩ := h
    subst h1
    have hidem := createRun_idem ignore pp verb trans ct
      (app_views_of urlpatterns app_name) (store, 0) s m hr 0
    simp only [hidem]

/-- Witness for C9 at a concrete input: one view, empty initial store;
the first run creates one permission, replaying on its result store
returns it unchanged with zero created. -/
theorem C9_witness :
    handle_app_config ⟨1, false, false, "access_view_"⟩ "a" [] (fun s => s) (some 1)
        (UrlPatterns.cons (UrlEntry.pattern (some ⟨"a", "v", none, none, none⟩)) UrlPatterns.nil)
        [⟨1, "access_view_a.v", "a.v"⟩]
      = CmdOutcome.ok [⟨1, "access_view_a.v", "a.v"⟩] 0 :=
  C9_create_update_idempotent 1 "access_view_" "a" [] (fun s => s) 1
    (UrlPatterns.cons (UrlEntry.pattern (some ⟨"a", "v", none, none, none⟩)) UrlPatterns.nil)
    [] [⟨1, "access_view_a.v", "a.v"⟩] 1 (by decide)

end ViewPerms
